import Mathlib

/-!
# Verification of `mint-utils` — `AliasMap` (src/libs/class.AliasMap.js)

A shallow embedding of the `AliasMap` class: a map whose values are keyed
by a primary name and any number of aliases.  The JavaScript class keeps two
structures:

* `_map`    : a `Map` from every registered name string (primary or alias)
              to the stored value;
* `_nameSet`: a `Set` of primary names only, giving insertion order and size.

JavaScript `Map`/`Set` preserve insertion order; re-setting an existing key
updates its value in place without moving it.  We model them as association
lists / lists with exactly those semantics.

Dynamically-typed argument values are modelled by `JSVal`.  Methods that can
throw are embedded in `Option`: `none` models a thrown precondition error.
In the source every `precon` check precedes every mutation, so a throw leaves
the container untouched; the embedding mirrors this by producing no successor
state on `none`.
-/

set_option autoImplicit false

namespace MintUtils

/-- A JavaScript runtime value, as far as `AliasMap`'s API can observe it:
`undefined`, booleans, numbers, strings, arrays, plain objects (ordered
field lists), and functions (identified by an opaque id). -/
inductive JSVal where
  | undefined : JSVal
  | bool (b : Bool) : JSVal
  | num (n : Int) : JSVal
  | str (s : String) : JSVal
  | arr (elems : List JSVal) : JSVal
  | obj (fields : List (String × JSVal)) : JSVal
  | fn (id : Nat) : JSVal

/-- Property lookup on an object's field list (first match wins). -/
def fieldLookup : List (String × JSVal) → String → JSVal
  | [], _ => .undefined
  | (n, x) :: rest, f => if n = f then x else fieldLookup rest f

/-- JavaScript property access `v.f`: a field of an object, `undefined` on
non-objects or missing fields (the `undefined` receiver itself never reaches
a property access in the embedded methods, because `precon.defined` runs
first). -/
def getField (v : JSVal) (f : String) : JSVal :=
  match v with
  | .obj fields => fieldLookup fields f
  | _ => .undefined

/-- Extract the strings of an array value all of whose elements are strings;
`none` if some element is not a string (`precon.arrayOf(…, 'string')`
failure). -/
def asStrings : List JSVal → Option (List String)
  | [] => some []
  | .str s :: rest => (asStrings rest).map (fun l => s :: l)
  | _ => none

/-- `typeof v === 'undefined'`. -/
def isUndefined : JSVal → Bool
  | .undefined => true
  | _ => false

/-! ## JavaScript `Map` and `Set` semantics over lists -/

/-- `Map.prototype.get`: value of the first entry with the given key,
`undefined` if absent. -/
def mapGet : List (String × JSVal) → String → JSVal
  | [], _ => .undefined
  | (k', v') :: rest, k => if k' = k then v' else mapGet rest k

/-- `Map.prototype.has`. -/
def mapHas : List (String × JSVal) → String → Bool
  | [], _ => false
  | (k', _) :: rest, k => k' = k || mapHas rest k

/-- `Map.prototype.set`: update the existing entry in place (keeping its
position) or append a fresh entry at the end. -/
def mapSet : List (String × JSVal) → String → JSVal → List (String × JSVal)
  | [], k, v => [(k, v)]
  | (k', v') :: rest, k, v =>
      if k' = k then (k, v) :: rest else (k', v') :: mapSet rest k v

/-- `Map.prototype.delete`'s effect on the entries (the key occurs at most
once in a `Map`, so filtering is its removal). -/
def mapDelete (m : List (String × JSVal)) (k : String) : List (String × JSVal) :=
  m.filter (fun p => p.1 ≠ k)

/-- `Set.prototype.add`: append iff not already present (an existing element
keeps its original position). -/
def setAdd (ns : List String) (n : String) : List String :=
  if n ∈ ns then ns else ns ++ [n]

/-- `Set.prototype.delete`'s effect on the elements. -/
def setDelete (ns : List String) (n : String) : List String :=
  ns.filter (fun x => x ≠ n)

/-! ## The `AliasMap` container -/

/-- The state of an `AliasMap` instance: the flat name→value map `_map` and
the ordered primary-name set `_nameSet`. -/
structure AliasMap where
  _map : List (String × JSVal)
  _nameSet : List String

/-- `new AliasMap()`. -/
def AliasMap.empty : AliasMap := ⟨[], []⟩

/-- `get size() { return this._nameSet.size; }` -/
def AliasMap.size (m : AliasMap) : Nat := m._nameSet.length

/-- `has(nameOrAlias)`: `precon.string(nameOrAlias)` throws (`none`) on a
non-string; otherwise `_map.has(nameOrAlias)`. -/
def AliasMap.has (m : AliasMap) (nameOrAlias : JSVal) : Option Bool :=
  match nameOrAlias with
  | .str s => some (mapHas m._map s)
  | _ => none

/-- `get(nameOrAlias)`: `precon.string(nameOrAlias)` throws (`none`) on a
non-string; otherwise `_map.get(nameOrAlias)` (`undefined` when absent). -/
def AliasMap.get (m : AliasMap) (nameOrAlias : JSVal) : Option JSVal :=
  match nameOrAlias with
  | .str s => some (mapGet m._map s)
  | _ => none

/-- `set(key, value)`.  The `precon` checks (`defined(key)`,
`string(key.name)`, `arrayOf(key.aliasArr, 'string')`) run before any
mutation; a failure is `none`.  Then
`value = typeof value === 'undefined' ? key : value`, the value is stored
under `key.name`, `key.name` is added to `_nameSet`, and the value is stored
under every alias in order. -/
def AliasMap.set (m : AliasMap) (key value : JSVal) : Option AliasMap :=
  if isUndefined key then none
  else
    match getField key "name", getField key "aliasArr" with
    | .str name, .arr elems =>
      match asStrings elems with
      | some aliasArr =>
        let v := if isUndefined value then key else value
        some { _map := aliasArr.foldl (fun mp a => mapSet mp a v) (mapSet m._map name v),
               _nameSet := setAdd m._nameSet name }
      | none => none
    | _, _ => none

/-- `set` as it is called: JavaScript passes `undefined` for an omitted
argument, so `set(key)` and `set(key, undefined)` reach the body with the
same `value`.  `none` models the omitted argument. -/
def AliasMap.setArgs (m : AliasMap) (key : JSVal) (value? : Option JSVal) : Option AliasMap :=
  m.set key (value?.getD JSVal.undefined)

/-- `delete(key)`.  The same `precon` checks as `set` run first (`none` on
failure).  Then the result is `_map.delete(key.name)` — whether the *flat
map* contained `key.name` — `key.name` is removed from `_nameSet`, and every
alias in `key.aliasArr` is removed from the flat map. -/
def AliasMap.delete (m : AliasMap) (key : JSVal) : Option (Bool × AliasMap) :=
  if isUndefined key then none
  else
    match getField key "name", getField key "aliasArr" with
    | .str name, .arr elems =>
      match asStrings elems with
      | some aliasArr =>
        some (mapHas m._map name,
              { _map := aliasArr.foldl (fun mp a => mapDelete mp a) (mapDelete m._map name),
                _nameSet := setDelete m._nameSet name })
      | none => none
    | _, _ => none

/-- `clear()`. -/
def AliasMap.clear (_ : AliasMap) : AliasMap := ⟨[], []⟩

/-- `forEach(iteratorFn)`: `precon.funct` throws (`none`) on a non-function;
otherwise the callback is invoked once per primary name in `_nameSet` order
with `(_map.get(name), index, this)`.  The embedding returns the list of
`(value, index)` argument pairs passed to the callback. -/
def AliasMap.forEach (m : AliasMap) (iteratorFn : JSVal) : Option (List (JSVal × Nat)) :=
  match iteratorFn with
  | .fn _ => some (m._nameSet.enum.map (fun p => (mapGet m._map p.2, p.1)))
  | _ => none

/-- `keys()`: the `_nameSet` iterator, i.e. the primary names in insertion
order. -/
def AliasMap.keys (m : AliasMap) : List String := m._nameSet

/-- `values()`: for each primary name pulled from the `_nameSet` iterator,
the current `_map.get(name)`. -/
def AliasMap.values (m : AliasMap) : List JSVal :=
  m._nameSet.map (fun n => mapGet m._map n)

/-- `[Symbol.iterator]()`: for each primary name pulled from the `_nameSet`
iterator, the pair `[name, _map.get(name)]`. -/
def AliasMap.iterPairs (m : AliasMap) : List (String × JSVal) :=
  m._nameSet.map (fun n => (n, mapGet m._map n))

/-! ## Valid keys -/

/-- A well-shaped `set`/`delete` key: a string `name` and an array-of-strings
`aliasArr`.  Used to quantify over the *valid* arguments of `set` and
`delete`. -/
structure Key where
  name : String
  aliasArr : List String
deriving DecidableEq

/-- The object value a `Key` denotes. -/
def Key.toVal (k : Key) : JSVal :=
  .obj [("name", .str k.name), ("aliasArr", .arr (k.aliasArr.map .str))]

/-- All name strings of a key, primary name first. -/
def keyNames (k : Key) : List String := k.name :: k.aliasArr

/-- The value actually stored by `set key value`: `key` itself when `value`
is `undefined`. -/
def actualValue (k : Key) (v : JSVal) : JSVal :=
  if isUndefined v then k.toVal else v

/-- The state `set` produces on a valid key (the happy path of
`AliasMap.set`). -/
def setValid (m : AliasMap) (k : Key) (v : JSVal) : AliasMap :=
  { _map := k.aliasArr.foldl (fun mp a => mapSet mp a (actualValue k v))
              (mapSet m._map k.name (actualValue k v)),
    _nameSet := setAdd m._nameSet k.name }

/-- The state `delete` produces on a valid key (the happy path of
`AliasMap.delete`). -/
def deleteValid (m : AliasMap) (k : Key) : AliasMap :=
  { _map := k.aliasArr.foldl (fun mp a => mapDelete mp a) (mapDelete m._map k.name),
    _nameSet := setDelete m._nameSet k.name }

/-! ## Basic lemmas about the `Map`/`Set` models -/

theorem mapGet_mapSet (m : List (String × JSVal)) (k k' : String) (v : JSVal) :
    mapGet (mapSet m k v) k' = if k = k' then v else mapGet m k' := by
  induction m with
  | nil => by_cases h : k = k' <;> simp [mapSet, mapGet, h]
  | cons p rest ih =>
    obtain ⟨hk, hv⟩ := p
    by_cases h1 : hk = k
    · subst h1
      by_cases h2 : hk = k' <;> simp [mapSet, mapGet, h2]
    · have hstep : mapSet ((hk, hv) :: rest) k v = (hk, hv) :: mapSet rest k v := by
        simp [mapSet, h1]
      by_cases h2 : hk = k'
      · subst h2
        simp [hstep, mapGet, (Ne.symm h1 : ¬k = hk)]
      · simp [hstep, mapGet, h2, ih]

theorem mapHas_mapSet (m : List (String × JSVal)) (k k' : String) (v : JSVal) :
    mapHas (mapSet m k v) k' = if k = k' then true else mapHas m k' := by
  induction m with
  | nil => by_cases h : k = k' <;> simp [mapSet, mapHas, h]
  | cons p rest ih =>
    obtain ⟨hk, hv⟩ := p
    by_cases h1 : hk = k
    · subst h1
      by_cases h2 : hk = k' <;> simp [mapSet, mapHas, h2]
    · have hstep : mapSet ((hk, hv) :: rest) k v = (hk, hv) :: mapSet rest k v := by
        simp [mapSet, h1]
      by_cases h2 : hk = k'
      · subst h2
        simp [hstep, mapHas, (Ne.symm h1 : ¬k = hk)]
      · simp [hstep, mapHas, h2, ih]

theorem mapGet_mapDelete (m : List (String × JSVal)) (k k' : String) :
    mapGet (mapDelete m k) k' = if k = k' then .undefined else mapGet m k' := by
  induction m with
  | nil => by_cases h : k = k' <;> simp [mapDelete, mapGet, h]
  | cons p rest ih =>
    obtain ⟨hk, hv⟩ := p
    by_cases h1 : hk = k
    · subst h1
      have hstep : mapDelete ((hk, hv) :: rest) hk = mapDelete rest hk := by
        simp [mapDelete]
      by_cases h2 : hk = k'
      · subst h2
        simp [hstep, mapGet, ih]
      · simp [hstep, mapGet, h2, ih]
    · have hstep : mapDelete ((hk, hv) :: rest) k = (hk, hv) :: mapDelete rest k := by
        simp [mapDelete, h1]
      by_cases h2 : hk = k'
      · subst h2
        simp [hstep, mapGet, (Ne.symm h1 : ¬k = hk)]
      · simp [hstep, mapGet, h2, ih]

theorem mapHas_mapDelete (m : List (String × JSVal)) (k k' : String) :
    mapHas (mapDelete m k) k' = if k = k' then false else mapHas m k' := by
  induction m with
  | nil => by_cases h : k = k' <;> simp [mapDelete, mapHas, h]
  | cons p rest ih =>
    obtain ⟨hk, hv⟩ := p
    by_cases h1 : hk = k
    · subst h1
      have hstep : mapDelete ((hk, hv) :: rest) hk = mapDelete rest hk := by
        simp [mapDelete]
      by_cases h2 : hk = k'
      · subst h2
        simp [hstep, mapHas, ih]
      · simp [hstep, mapHas, h2, ih]
    · have hstep : mapDelete ((hk, hv) :: rest) k = (hk, hv) :: mapDelete rest k := by
        simp [mapDelete, h1]
      by_cases h2 : hk = k'
      · subst h2
        simp [hstep, mapHas, (Ne.symm h1 : ¬k = hk)]
      · simp [hstep, mapHas, h2, ih]

theorem mapGet_foldl_mapSet (l : List String) (m0 : List (String × JSVal))
    (v : JSVal) (s : String) :
    mapGet (l.foldl (fun mp a => mapSet mp a v) m0) s
      = if s ∈ l then v else mapGet m0 s := by
  induction l generalizing m0 with
  | nil => simp
  | cons a rest ih =>
    simp only [List.foldl_cons]
    rw [ih]
    by_cases hs : s ∈ rest
    · simp [hs]
    · by_cases ha : a = s
      · simp [hs, ha, mapGet_mapSet]
      · simp [hs, ha, mapGet_mapSet, Ne.symm ha]

theorem mapHas_foldl_mapSet (l : List String) (m0 : List (String × JSVal))
    (v : JSVal) (s : String) :
    mapHas (l.foldl (fun mp a => mapSet mp a v) m0) s
      = if s ∈ l then true else mapHas m0 s := by
  induction l generalizing m0 with
  | nil => simp
  | cons a rest ih =>
    simp only [List.foldl_cons]
    rw [ih]
    by_cases hs : s ∈ rest
    · simp [hs]
    · by_cases ha : a = s
      · simp [hs, ha, mapHas_mapSet]
      · simp [hs, ha, mapHas_mapSet, Ne.symm ha]

theorem mapGet_foldl_mapDelete (l : List String) (m0 : List (String × JSVal))
    (s : String) :
    mapGet (l.foldl (fun mp a => mapDelete mp a) m0) s
      = if s ∈ l then .undefined else mapGet m0 s := by
  induction l generalizing m0 with
  | nil => simp
  | cons a rest ih =>
    simp only [List.foldl_cons]
    rw [ih]
    by_cases hs : s ∈ rest
    · simp [hs]
    · by_cases ha : a = s
      · simp [hs, ha, mapGet_mapDelete]
      · simp [hs, ha, mapGet_mapDelete, Ne.symm ha]

theorem mapHas_foldl_mapDelete (l : List String) (m0 : List (String × JSVal))
    (s : String) :
    mapHas (l.foldl (fun mp a => mapDelete mp a) m0) s
      = if s ∈ l then false else mapHas m0 s := by
  induction l generalizing m0 with
  | nil => simp
  | cons a rest ih =>
    simp only [List.foldl_cons]
    rw [ih]
    by_cases hs : s ∈ rest
    · simp [hs]
    · by_cases ha : a = s
      · simp [hs, ha, mapHas_mapDelete]
      · simp [hs, ha, mapHas_mapDelete, Ne.symm ha]

theorem setAdd_of_mem {ns : List String} {n : String} (h : n ∈ ns) :
    setAdd ns n = ns := by simp [setAdd, h]

theorem setAdd_of_not_mem {ns : List String} {n : String} (h : n ∉ ns) :
    setAdd ns n = ns ++ [n] := by simp [setAdd, h]

theorem mem_setAdd {ns : List String} {n x : String} :
    x ∈ setAdd ns n ↔ x ∈ ns ∨ x = n := by
  by_cases h : n ∈ ns
  · rw [setAdd_of_mem h]
    constructor
    · exact Or.inl
    · rintro (hx | rfl) <;> [exact hx; exact h]
  · rw [setAdd_of_not_mem h]; simp

theorem nodup_setAdd {ns : List String} {n : String} (h : ns.Nodup) :
    (setAdd ns n).Nodup := by
  by_cases hn : n ∈ ns
  · rwa [setAdd_of_mem hn]
  · rw [setAdd_of_not_mem hn]
    simpa [List.nodup_append] using ⟨h, hn⟩

theorem mem_setDelete {ns : List String} {n x : String} :
    x ∈ setDelete ns n ↔ x ∈ ns ∧ x ≠ n := by
  simp [setDelete]

theorem nodup_setDelete {ns : List String} {n : String} (h : ns.Nodup) :
    (setDelete ns n).Nodup := List.Nodup.filter _ h

theorem asStrings_map_str (l : List String) : asStrings (l.map .str) = some l := by
  induction l with
  | nil => rfl
  | cons s rest ih => simp [asStrings, ih]

theorem set_toVal (m : AliasMap) (k : Key) (v : JSVal) :
    m.set k.toVal v = some (setValid m k v) := by
  simp [AliasMap.set, Key.toVal, getField, fieldLookup, isUndefined,
    asStrings_map_str, setValid, actualValue]

theorem delete_toVal (m : AliasMap) (k : Key) :
    m.delete k.toVal = some (mapHas m._map k.name, deleteValid m k) := by
  simp [AliasMap.delete, Key.toVal, getField, fieldLookup, isUndefined,
    asStrings_map_str, deleteValid]

/-! ## Sequences of valid operations

`Op` is one valid call to `set`, `delete` or `clear`; `runOps` replays a
sequence through the embedded methods starting from `new AliasMap()`.
`specEntries` is the ghost entry table the spec speaks about: for each
currently-stored primary name, the key of its most recent `set` and the
value that `set` stored. -/

inductive Op where
  | setOp (k : Key) (v : JSVal) : Op
  | delOp (k : Key) : Op
  | clearOp : Op

/-- Apply one valid operation through the embedded methods (a valid key never
throws, so `getD` never falls back). -/
def applyOp (m : AliasMap) : Op → AliasMap
  | .setOp k v => (m.set k.toVal v).getD m
  | .delOp k => ((m.delete k.toVal).map Prod.snd).getD m
  | .clearOp => m.clear

/-- The container state after a sequence of valid operations on a fresh
`AliasMap`. -/
def runOps (ops : List Op) : AliasMap := ops.foldl applyOp AliasMap.empty

/-- One step of the ghost entry table: `set` updates the entry with the same
primary name in place or appends a fresh one; `delete` removes the entry with
that primary name; `clear` empties the table. -/
def specStep (es : List (Key × JSVal)) : Op → List (Key × JSVal)
  | .setOp k v =>
    if k.name ∈ es.map (fun e => e.1.name)
    then es.map (fun e => if e.1.name = k.name then (k, actualValue k v) else e)
    else es ++ [(k, actualValue k v)]
  | .delOp k => es.filter (fun e => e.1.name ≠ k.name)
  | .clearOp => []

/-- The ghost entry table after a sequence of valid operations. -/
def specEntries (ops : List Op) : List (Key × JSVal) := ops.foldl specStep []

/-- The currently-stored primary names in insertion order. -/
def primaryNames (ops : List Op) : List String :=
  (specEntries ops).map (fun e => e.1.name)

theorem applyOp_setOp (m : AliasMap) (k : Key) (v : JSVal) :
    applyOp m (.setOp k v) = setValid m k v := by
  simp [applyOp, set_toVal]

theorem applyOp_delOp (m : AliasMap) (k : Key) :
    applyOp m (.delOp k) = deleteValid m k := by
  simp [applyOp, delete_toVal]

theorem map_name_update (es : List (Key × JSVal)) (k : Key) (v : JSVal) :
    (es.map (fun e => if e.1.name = k.name then (k, actualValue k v) else e)).map
        (fun e => e.1.name)
      = es.map (fun e => e.1.name) := by
  induction es with
  | nil => rfl
  | cons e rest ih =>
    by_cases h : e.1.name = k.name <;> simp [h, ih]

theorem map_name_filter (es : List (Key × JSVal)) (n : String) :
    (es.filter (fun e => e.1.name ≠ n)).map (fun e => e.1.name)
      = (es.map (fun e => e.1.name)).filter (fun x => x ≠ n) := by
  induction es with
  | nil => rfl
  | cons e rest ih =>
    simp only [ne_eq, decide_not] at ih ⊢
    by_cases h : e.1.name = n <;> simp [h, ih]

theorem nameSet_applyOp (m : AliasMap) (es : List (Key × JSVal)) (op : Op)
    (h : m._nameSet = es.map (fun e => e.1.name)) :
    (applyOp m op)._nameSet = (specStep es op).map (fun e => e.1.name) := by
  cases op with
  | setOp k v =>
    rw [applyOp_setOp]
    show setAdd m._nameSet k.name = _
    by_cases hm : k.name ∈ es.map (fun e => e.1.name)
    · rw [setAdd_of_mem (h ▸ hm), specStep, if_pos hm, map_name_update, h]
    · rw [setAdd_of_not_mem (h ▸ hm), specStep, if_neg hm]
      simp [h]
  | delOp k =>
    rw [applyOp_delOp]
    show setDelete m._nameSet k.name = _
    rw [specStep, map_name_filter, h, setDelete]
  | clearOp => rfl

theorem nameSet_foldl (ops : List Op) (m : AliasMap) (es : List (Key × JSVal))
    (h : m._nameSet = es.map (fun e => e.1.name)) :
    (ops.foldl applyOp m)._nameSet = (ops.foldl specStep es).map (fun e => e.1.name) := by
  induction ops generalizing m es with
  | nil => exact h
  | cons op rest ih => exact ih _ _ (nameSet_applyOp m es op h)

/-- After any valid operation sequence, `_nameSet` is exactly the list of
currently-stored primary names in insertion order. -/
theorem nameSet_runOps (ops : List Op) :
    (runOps ops)._nameSet = primaryNames ops :=
  nameSet_foldl ops AliasMap.empty [] rfl

theorem nodup_nameSet_applyOp (m : AliasMap) (op : Op)
    (h : m._nameSet.Nodup) : (applyOp m op)._nameSet.Nodup := by
  cases op with
  | setOp k v => rw [applyOp_setOp]; exact nodup_setAdd h
  | delOp k => rw [applyOp_delOp]; exact nodup_setDelete h
  | clearOp => exact List.nodup_nil

theorem nodup_nameSet_foldl (ops : List Op) (m : AliasMap)
    (h : m._nameSet.Nodup) : (ops.foldl applyOp m)._nameSet.Nodup := by
  induction ops generalizing m with
  | nil => exact h
  | cons op rest ih => exact ih _ (nodup_nameSet_applyOp m op h)

/-- `_nameSet` never holds a primary name twice. -/
theorem nodup_nameSet_runOps (ops : List Op) : (runOps ops)._nameSet.Nodup :=
  nodup_nameSet_foldl ops AliasMap.empty List.nodup_nil

theorem mapGet_setValid (m : AliasMap) (k : Key) (v : JSVal) (s : String) :
    mapGet (setValid m k v)._map s
      = if s ∈ keyNames k then actualValue k v else mapGet m._map s := by
  simp only [setValid, mapGet_foldl_mapSet, mapGet_mapSet, keyNames]
  by_cases h1 : s ∈ k.aliasArr
  · simp [h1]
  · by_cases h2 : k.name = s
    · simp [h1, h2]
    · simp [h1, h2, Ne.symm h2]

theorem mapHas_setValid (m : AliasMap) (k : Key) (v : JSVal) (s : String) :
    mapHas (setValid m k v)._map s
      = if s ∈ keyNames k then true else mapHas m._map s := by
  simp only [setValid, mapHas_foldl_mapSet, mapHas_mapSet, keyNames]
  by_cases h1 : s ∈ k.aliasArr
  · simp [h1]
  · by_cases h2 : k.name = s
    · simp [h1, h2]
    · simp [h1, h2, Ne.symm h2]

theorem mapGet_deleteValid (m : AliasMap) (k : Key) (s : String) :
    mapGet (deleteValid m k)._map s
      = if s ∈ keyNames k then .undefined else mapGet m._map s := by
  simp only [deleteValid, mapGet_foldl_mapDelete, mapGet_mapDelete, keyNames]
  by_cases h1 : s ∈ k.aliasArr
  · simp [h1]
  · by_cases h2 : k.name = s
    · simp [h1, h2]
    · simp [h1, h2, Ne.symm h2]

theorem mapHas_deleteValid (m : AliasMap) (k : Key) (s : String) :
    mapHas (deleteValid m k)._map s
      = if s ∈ keyNames k then false else mapHas m._map s := by
  simp only [deleteValid, mapHas_foldl_mapDelete, mapHas_mapDelete, keyNames]
  by_cases h1 : s ∈ k.aliasArr
  · simp [h1]
  · by_cases h2 : k.name = s
    · simp [h1, h2]
    · simp [h1, h2, Ne.symm h2]

/-! ## Key compatibility

The flat `_map` is a single global namespace: two entries whose key sets
share a name string clobber each other.  Two valid keys are *compatible*
when they are the same key or share no name string at all. -/

/-- `Compat k k'`: the keys are identical, or no name string (primary or
alias) of `k` occurs among the name strings of `k'`. -/
def Compat (k k' : Key) : Prop :=
  k = k' ∨ ∀ s ∈ keyNames k, s ∉ keyNames k'

theorem Compat.symm {k k' : Key} (h : Compat k k') : Compat k' k := by
  rcases h with rfl | hd
  · exact Or.inl rfl
  · exact Or.inr (fun s hs hs' => hd s hs' hs)

theorem Compat.disjoint_of_name_ne {k k' : Key} (h : Compat k k')
    (hn : k.name ≠ k'.name) : ∀ s ∈ keyNames k', s ∉ keyNames k := by
  rcases h with rfl | hd
  · exact absurd rfl hn
  · exact fun s hs hsk => hd s hsk hs

/-- The key an operation passes to `set`/`delete`, if any. -/
def opKey : Op → Option Key
  | .setOp k _ => some k
  | .delOp k => some k
  | .clearOp => none

/-- Two operations use compatible keys. -/
def OpCompat (o o' : Op) : Prop :=
  ∀ k k', opKey o = some k → opKey o' = some k' → Compat k k'

/-- All keys used across an operation sequence are pairwise identical or
name-disjoint. -/
def OpsCompat (ops : List Op) : Prop := ops.Pairwise OpCompat

/-- The coupling invariant between a container state and the ghost entry
table: `_nameSet` lists the entries' primary names in order without
duplicates, and the flat map sends every name string of every entry's key to
that entry's stored value. -/
structure Inv (m : AliasMap) (es : List (Key × JSVal)) : Prop where
  names : m._nameSet = es.map (fun e => e.1.name)
  nodup : (es.map (fun e => e.1.name)).Nodup
  gets : ∀ e ∈ es, ∀ s ∈ keyNames e.1, mapGet m._map s = e.2

theorem nodup_specStep (es : List (Key × JSVal)) (op : Op)
    (h : (es.map (fun e => e.1.name)).Nodup) :
    ((specStep es op).map (fun e => e.1.name)).Nodup := by
  cases op with
  | setOp k v =>
    by_cases hm : k.name ∈ es.map (fun e => e.1.name)
    · rw [specStep, if_pos hm, map_name_update]; exact h
    · rw [specStep, if_neg hm]
      rw [List.map_append]
      refine List.nodup_append.mpr ⟨h, List.nodup_singleton _, ?_⟩
      intro a ha hb
      rw [List.map_cons, List.map_nil, List.mem_singleton] at hb
      exact hm (hb ▸ ha)
  | delOp k =>
    rw [specStep, map_name_filter]
    exact h.filter _
  | clearOp => simp [specStep]

theorem specStep_key_mem (es : List (Key × JSVal)) (op : Op) :
    ∀ e ∈ specStep es op, (∃ e0 ∈ es, e.1 = e0.1) ∨ opKey op = some e.1 := by
  cases op with
  | setOp k v =>
    intro e he
    by_cases hm : k.name ∈ es.map (fun x => x.1.name)
    · rw [specStep, if_pos hm] at he
      rw [List.mem_map] at he
      obtain ⟨e0, he0, heq⟩ := he
      by_cases hn : e0.1.name = k.name
      · right; rw [← heq, if_pos hn, opKey]
      · left; exact ⟨e0, he0, by rw [← heq, if_neg hn]⟩
    · rw [specStep, if_neg hm] at he
      rcases List.mem_append.mp he with he | he
      · exact Or.inl ⟨e, he, rfl⟩
      · right; rw [List.mem_singleton.mp he, opKey]
  | delOp k =>
    intro e he
    exact Or.inl ⟨e, (List.mem_filter.mp he).1, rfl⟩
  | clearOp => intro e he; simp [specStep] at he

theorem inv_applyOp (m : AliasMap) (es : List (Key × JSVal)) (op : Op)
    (hinv : Inv m es)
    (hop : ∀ kk, opKey op = some kk → ∀ e ∈ es, Compat kk e.1) :
    Inv (applyOp m op) (specStep es op) := by
  refine ⟨nameSet_applyOp m es op hinv.names, nodup_specStep es op hinv.nodup, ?_⟩
  cases op with
  | setOp k v =>
    have hck : ∀ e ∈ es, Compat k e.1 := hop k rfl
    rw [applyOp_setOp]
    intro e he s hs
    by_cases hm : k.name ∈ es.map (fun x => x.1.name)
    · rw [specStep, if_pos hm, List.mem_map] at he
      obtain ⟨e0, he0, heq⟩ := he
      by_cases hn : e0.1.name = k.name
      · rw [if_pos hn] at heq
        subst heq
        rw [mapGet_setValid, if_pos hs]
      · rw [if_neg hn] at heq
        subst heq
        have hd := (hck e0 he0).disjoint_of_name_ne (fun hkn => hn hkn.symm)
        rw [mapGet_setValid, if_neg (hd s hs)]
        exact hinv.gets e0 he0 s hs
    · rw [specStep, if_neg hm] at he
      rcases List.mem_append.mp he with he | he
      · have hn : e.1.name ≠ k.name := by
          intro hcontra
          exact hm (hcontra ▸ List.mem_map_of_mem (fun x => x.1.name) he)
        have hd := (hck e he).disjoint_of_name_ne (fun hkn => hn hkn.symm)
        rw [mapGet_setValid, if_neg (hd s hs)]
        exact hinv.gets e he s hs
      · rw [List.mem_singleton.mp he] at hs ⊢
        rw [mapGet_setValid, if_pos hs]
  | delOp k =>
    have hck : ∀ e ∈ es, Compat k e.1 := hop k rfl
    rw [applyOp_delOp]
    rw [specStep]
    intro e he s hs
    have he' := List.mem_filter.mp he
    have hn : e.1.name ≠ k.name := by simpa using he'.2
    have hd := (hck e he'.1).disjoint_of_name_ne (fun hkn => hn hkn.symm)
    rw [mapGet_deleteValid, if_neg (hd s hs)]
    exact hinv.gets e he'.1 s hs
  | clearOp =>
    intro e he
    simp [specStep] at he

theorem inv_foldl (ops : List Op) (m : AliasMap) (es : List (Key × JSVal))
    (hinv : Inv m es) (hpair : ops.Pairwise OpCompat)
    (hes : ∀ e ∈ es, ∀ op ∈ ops, ∀ kk, opKey op = some kk → Compat kk e.1) :
    Inv (ops.foldl applyOp m) (ops.foldl specStep es) := by
  induction ops generalizing m es with
  | nil => exact hinv
  | cons op rest ih =>
    have hhead : ∀ kk, opKey op = some kk → ∀ e ∈ es, Compat kk e.1 :=
      fun kk hkk e he => hes e he op (List.mem_cons_self op rest) kk hkk
    have hpair' := List.pairwise_cons.mp hpair
    apply ih (applyOp m op) (specStep es op) (inv_applyOp m es op hinv hhead) hpair'.2
    intro e he op' hop' kk' hkk'
    rcases specStep_key_mem es op e he with ⟨e0, he0, heq⟩ | hk
    · rw [heq]
      exact hes e0 he0 op' (List.mem_cons_of_mem op hop') kk' hkk'
    · exact (hpair'.1 op' hop' e.1 kk' hk hkk').symm

/-- Under pairwise key compatibility, the coupling invariant holds after any
valid operation sequence. -/
theorem inv_runOps (ops : List Op) (h : OpsCompat ops) :
    Inv (runOps ops) (specEntries ops) := by
  refine inv_foldl ops AliasMap.empty [] ⟨rfl, List.nodup_nil, ?_⟩ h ?_
  · intro e he
    exact absurd he (List.not_mem_nil e)
  · intro e he
    exact absurd he (List.not_mem_nil e)

/-! ## Malformed arguments -/

/-- A `set`/`delete` argument passing the three `precon` checks: the key is
defined, its `name` is a string, and its `aliasArr` is an array of strings. -/
def ValidKeyVal (key : JSVal) : Prop :=
  key ≠ JSVal.undefined
  ∧ (∃ s, getField key "name" = JSVal.str s)
  ∧ ∃ elems l, getField key "aliasArr" = JSVal.arr elems ∧ asStrings elems = some l

theorem actualValue_of_defined {k : Key} {v : JSVal} (hv : v ≠ JSVal.undefined) :
    actualValue k v = v := by
  cases v
  · exact absurd rfl hv
  all_goals rfl

theorem has_eq_none_of_not_string (m : AliasMap) (v : JSVal)
    (hv : ∀ s, v ≠ JSVal.str s) : m.has v = none := by
  cases v <;> first | rfl | exact absurd rfl (hv _)

theorem get_eq_none_of_not_string (m : AliasMap) (v : JSVal)
    (hv : ∀ s, v ≠ JSVal.str s) : m.get v = none := by
  cases v <;> first | rfl | exact absurd rfl (hv _)

theorem forEach_eq_none_of_not_function (m : AliasMap) (f : JSVal)
    (hf : ∀ fid, f ≠ JSVal.fn fid) : m.forEach f = none := by
  cases f <;> first | rfl | exact absurd rfl (hf _)

theorem valid_of_set_eq_some (m m' : AliasMap) (key value : JSVal)
    (h : m.set key value = some m') : ValidKeyVal key := by
  rw [AliasMap.set] at h
  split at h
  · exact absurd h (by simp)
  · next hdef =>
    have hne : key ≠ JSVal.undefined := by
      intro hc
      subst hc
      exact hdef rfl
    split at h
    · next name elems hname halias =>
      split at h
      · next l hl => exact ⟨hne, ⟨name, hname⟩, elems, l, halias, hl⟩
      · exact absurd h (by simp)
    · exact absurd h (by simp)

theorem valid_of_delete_eq_some (m : AliasMap) (r : Bool × AliasMap) (key : JSVal)
    (h : m.delete key = some r) : ValidKeyVal key := by
  rw [AliasMap.delete] at h
  split at h
  · exact absurd h (by simp)
  · next hdef =>
    have hne : key ≠ JSVal.undefined := by
      intro hc
      subst hc
      exact hdef rfl
    split at h
    · next name elems hname halias =>
      split at h
      · next l hl => exact ⟨hne, ⟨name, hname⟩, elems, l, halias, hl⟩
      · exact absurd h (by simp)
    · exact absurd h (by simp)

theorem set_eq_none_of_not_valid (m : AliasMap) (key value : JSVal)
    (h : ¬ValidKeyVal key) : m.set key value = none := by
  cases hset : m.set key value with
  | none => rfl
  | some m' => exact absurd (valid_of_set_eq_some m m' key value hset) h

theorem delete_eq_none_of_not_valid (m : AliasMap) (key : JSVal)
    (h : ¬ValidKeyVal key) : m.delete key = none := by
  cases hdel : m.delete key with
  | none => rfl
  | some r => exact absurd (valid_of_delete_eq_some m r key hdel) h

/-! ## The claims -/

/-- C1 counterexample: `delete`'s result is `_map.delete(key.name)`, which is
`true` whenever `key.name` was any registered name string.  After
`set({name:"a", aliasArr:["b"]}, 1)`, the name `"b"` is *not* a stored
primary name, yet `delete({name:"b", aliasArr:[]})` returns `true` — so
"returns true iff k.name was present in the ordered primary-name set" fails. -/
theorem C1_counterexample :
    ((runOps [Op.setOp ⟨"a", ["b"]⟩ (JSVal.num 1)]).delete
        (Key.mk "b" []).toVal).map Prod.fst = some true
    ∧ "b" ∉ (runOps [Op.setOp ⟨"a", ["b"]⟩ (JSVal.num 1)])._nameSet := by
  constructor <;> decide

/-- C1 (amended): for every `AliasMap` state and valid key `k`, `delete(k)`
returns `true` iff `k.name` was present in the *flat* name→value map before
the call (whether as a primary name or as an alias of any entry). -/
theorem C1_amended (m : AliasMap) (k : Key) :
    (m.delete k.toVal).map Prod.fst = some (mapHas m._map k.name) := by
  rw [delete_toVal]
  rfl

/-- C2 counterexample: after `set({name:"a", aliasArr:[]}, 1)` followed by
`delete({name:"b", aliasArr:["a"]})`, the primary name `"a"` is still in the
ordered primary-name set but the flat association no longer contains it at
all — the claimed invariant fails after this valid `set`/`delete` sequence. -/
theorem C2_counterexample :
    "a" ∈ (runOps [Op.setOp ⟨"a", []⟩ (JSVal.num 1),
        Op.delOp ⟨"b", ["a"]⟩])._nameSet
    ∧ mapHas (runOps [Op.setOp ⟨"a", []⟩ (JSVal.num 1),
        Op.delOp ⟨"b", ["a"]⟩])._map "a" = false := by
  constructor <;> decide

/-- C2 (amended): after any sequence of valid `set`/`delete`/`clear`
operations *whose keys are pairwise identical or name-disjoint*, the ordered
primary-name set has no duplicates, `size` equals the number of
currently-stored distinct primary names (however many aliases exist), and
every stored primary name is mapped in the flat association to that entry's
stored value. -/
theorem C2_amended (ops : List Op) (h : OpsCompat ops) :
    (runOps ops)._nameSet.Nodup
    ∧ (runOps ops).size = (specEntries ops).length
    ∧ ∀ e ∈ specEntries ops, mapGet (runOps ops)._map e.1.name = e.2 := by
  obtain ⟨hnames, hnodup, hgets⟩ := inv_runOps ops h
  refine ⟨hnames ▸ hnodup, ?_, fun e he => hgets e he e.1.name (List.mem_cons_self _ _)⟩
  rw [AliasMap.size, hnames, List.length_map]

/-- C2 witness: the amended invariant at a concrete compatible sequence. -/
theorem C2_amended_witness :
    (runOps [Op.setOp ⟨"red", ["r"]⟩ (JSVal.num 5)])._nameSet.Nodup
    ∧ (runOps [Op.setOp ⟨"red", ["r"]⟩ (JSVal.num 5)]).size
        = (specEntries [Op.setOp ⟨"red", ["r"]⟩ (JSVal.num 5)]).length
    ∧ ∀ e ∈ specEntries [Op.setOp ⟨"red", ["r"]⟩ (JSVal.num 5)],
        mapGet (runOps [Op.setOp ⟨"red", ["r"]⟩ (JSVal.num 5)])._map e.1.name = e.2 :=
  C2_amended [Op.setOp ⟨"red", ["r"]⟩ (JSVal.num 5)]
    (List.pairwise_singleton OpCompat (Op.setOp ⟨"red", ["r"]⟩ (JSVal.num 5)))

/-- C3: calling any method with a malformed argument throws the precondition
error (`none`) — a non-string `nameOrAlias` for `has`/`get`, a key without a
string `name` and an array-of-strings `aliasArr` for `set`/`delete`, a
non-function `iteratorFn` for `forEach`.  In the source all `precon` checks
precede every mutation, so the embedded throwing call produces no successor
state: the container is exactly as before the call.  (The `precon` library
itself is an external dependency; its checks are modelled from the spec's
argument-validation contract.) -/
theorem C3_malformed_throws (m : AliasMap) :
    (∀ v : JSVal, (∀ s, v ≠ JSVal.str s) → m.has v = none ∧ m.get v = none)
    ∧ (∀ key value : JSVal, ¬ValidKeyVal key →
        m.set key value = none ∧ m.delete key = none)
    ∧ ∀ f : JSVal, (∀ fid, f ≠ JSVal.fn fid) → m.forEach f = none :=
  ⟨fun v hv => ⟨has_eq_none_of_not_string m v hv, get_eq_none_of_not_string m v hv⟩,
   fun key value hk => ⟨set_eq_none_of_not_valid m key value hk,
     delete_eq_none_of_not_valid m key hk⟩,
   fun f hf => forEach_eq_none_of_not_function m f hf⟩

/-- C3 witness: the spec's own example `get(123)` (and its mates) throw on
the empty container. -/
theorem C3_witness :
    (AliasMap.empty.has (JSVal.num 123) = none
      ∧ AliasMap.empty.get (JSVal.num 123) = none)
    ∧ (AliasMap.empty.set (JSVal.num 123) (JSVal.num 0) = none
      ∧ AliasMap.empty.delete (JSVal.num 123) = none)
    ∧ AliasMap.empty.forEach (JSVal.num 123) = none :=
  ⟨(C3_malformed_throws AliasMap.empty).1 (JSVal.num 123)
      (fun _ h => JSVal.noConfusion h),
   (C3_malformed_throws AliasMap.empty).2.1 (JSVal.num 123) (JSVal.num 0)
      (fun hval => JSVal.noConfusion hval.2.1.choose_spec),
   (C3_malformed_throws AliasMap.empty).2.2 (JSVal.num 123)
      (fun _ h => JSVal.noConfusion h)⟩

/-- C4 counterexample: the claim quantifies over *every* value `v`, but for
`v = undefined` the code stores the key object itself (the
`typeof value === 'undefined'` fallback), so `get(k.name)` returns the key —
a defined object — and not `v`. -/
theorem C4_counterexample :
    ((AliasMap.empty.set (Key.mk "n" []).toVal JSVal.undefined).getD
        AliasMap.empty).get (JSVal.str "n") = some (Key.mk "n" []).toVal
    ∧ (Key.mk "n" []).toVal ≠ JSVal.undefined := by
  constructor
  · rfl
  · intro h
    rw [Key.toVal] at h
    exact JSVal.noConfusion h

/-- C4 (amended): for every state, valid key `k` and *defined* value `v`
(`v ≠ undefined`), immediately after `set(k, v)` both `get` and `has` succeed
on `k.name` and on every alias: `get` returns `v` and `has` returns `true`. -/
theorem C4_amended (m m' : AliasMap) (k : Key) (v : JSVal)
    (hv : v ≠ JSVal.undefined) (hset : m.set k.toVal v = some m') :
    ∀ s ∈ keyNames k,
      m'.get (JSVal.str s) = some v ∧ m'.has (JSVal.str s) = some true := by
  rw [set_toVal] at hset
  injection hset with h
  subst h
  intro s hs
  constructor
  · show some (mapGet (setValid m k v)._map s) = some v
    rw [mapGet_setValid, if_pos hs, actualValue_of_defined hv]
  · show some (mapHas (setValid m k v)._map s) = some true
    rw [mapHas_setValid, if_pos hs]

/-- C4 witness: the amended statement at `set({name:"n", aliasArr:["a"]}, 7)`,
queried at the alias `"a"`. -/
theorem C4_amended_witness :
    (setValid AliasMap.empty (Key.mk "n" ["a"]) (JSVal.num 7)).get
        (JSVal.str "a") = some (JSVal.num 7)
    ∧ (setValid AliasMap.empty (Key.mk "n" ["a"]) (JSVal.num 7)).has
        (JSVal.str "a") = some true :=
  C4_amended AliasMap.empty (setValid AliasMap.empty (Key.mk "n" ["a"]) (JSVal.num 7))
    (Key.mk "n" ["a"]) (JSVal.num 7) (fun h => JSVal.noConfusion h)
    (set_toVal AliasMap.empty (Key.mk "n" ["a"]) (JSVal.num 7))
    "a" (by decide)

/-- C5: after any sequence of valid operations, `keys()`, `values()`, the
default iterator and `forEach` all traverse the same primary names in the
same order — the insertion order of the currently-stored primary names
(`primaryNames`), not alphabetical order and not alias order. -/
theorem C5_iteration_order (ops : List Op) (fid : Nat) :
    (runOps ops).keys = primaryNames ops
    ∧ (runOps ops).values
        = (primaryNames ops).map (fun n => mapGet (runOps ops)._map n)
    ∧ (runOps ops).iterPairs
        = (primaryNames ops).map (fun n => (n, mapGet (runOps ops)._map n))
    ∧ (runOps ops).forEach (JSVal.fn fid)
        = some ((primaryNames ops).enum.map
            (fun p => (mapGet (runOps ops)._map p.2, p.1))) := by
  have h := nameSet_runOps ops
  refine ⟨h, ?_, ?_, ?_⟩
  · rw [AliasMap.values, h]
  · rw [AliasMap.iterPairs, h]
  · show some ((runOps ops)._nameSet.enum.map
        (fun p => (mapGet (runOps ops)._map p.2, p.1))) = _
    rw [h]

/-- C6: re-setting a key whose primary name is already stored leaves the
ordered primary-name set completely unchanged — no duplicate entry, no
change of position, and the same `size`. -/
theorem C6_reset_preserves_order (m m' : AliasMap) (k : Key) (v : JSVal)
    (hmem : k.name ∈ m._nameSet) (hset : m.set k.toVal v = some m') :
    m'._nameSet = m._nameSet ∧ m'.size = m.size := by
  rw [set_toVal] at hset
  injection hset with h
  subst h
  refine ⟨setAdd_of_mem hmem, ?_⟩
  show (setAdd m._nameSet k.name).length = m._nameSet.length
  rw [setAdd_of_mem hmem]

/-- C6 witness: re-setting `"n"` on a container already holding `"n"`. -/
theorem C6_witness :
    (setValid ⟨[("n", JSVal.num 1)], ["n"]⟩ (Key.mk "n" []) (JSVal.num 2))._nameSet
        = (⟨[("n", JSVal.num 1)], ["n"]⟩ : AliasMap)._nameSet
    ∧ (setValid ⟨[("n", JSVal.num 1)], ["n"]⟩ (Key.mk "n" []) (JSVal.num 2)).size
        = (⟨[("n", JSVal.num 1)], ["n"]⟩ : AliasMap).size :=
  C6_reset_preserves_order ⟨[("n", JSVal.num 1)], ["n"]⟩ _ (Key.mk "n" [])
    (JSVal.num 2) (by decide) (set_toVal _ _ _)

/-- C7: when a name string of the inserted key already points at a
different, earlier association, `set` overwrites that flat association — a
subsequent `get` of the string returns the new entry's stored value — while
every previously stored primary name remains in the ordered set and `size`
is not reduced. -/
theorem C7_collision_overwrites (m m' : AliasMap) (k : Key) (v : JSVal) (s : String)
    (hs : s ∈ keyNames k) (_hhad : mapHas m._map s = true)
    (_hdiff : mapGet m._map s ≠ actualValue k v)
    (hset : m.set k.toVal v = some m') :
    m'.get (JSVal.str s) = some (actualValue k v)
    ∧ (∀ p ∈ m._nameSet, p ∈ m'._nameSet)
    ∧ m.size ≤ m'.size := by
  rw [set_toVal] at hset
  injection hset with h
  subst h
  refine ⟨?_, ?_, ?_⟩
  · show some (mapGet (setValid m k v)._map s) = some (actualValue k v)
    rw [mapGet_setValid, if_pos hs]
  · intro p hp
    show p ∈ setAdd m._nameSet k.name
    exact mem_setAdd.mpr (Or.inl hp)
  · show m._nameSet.length ≤ (setAdd m._nameSet k.name).length
    by_cases hm : k.name ∈ m._nameSet
    · rw [setAdd_of_mem hm]
    · rw [setAdd_of_not_mem hm, List.length_append]
      simp

/-- C7 witness: `{name:"y", aliasArr:["x"]}` collides with the earlier
primary name `"x"` and overwrites its association. -/
theorem C7_witness :
    (setValid ⟨[("x", JSVal.num 1)], ["x"]⟩ (Key.mk "y" ["x"]) (JSVal.num 2)).get
        (JSVal.str "x") = some (actualValue (Key.mk "y" ["x"]) (JSVal.num 2))
    ∧ (∀ p ∈ (⟨[("x", JSVal.num 1)], ["x"]⟩ : AliasMap)._nameSet,
        p ∈ (setValid ⟨[("x", JSVal.num 1)], ["x"]⟩ (Key.mk "y" ["x"])
          (JSVal.num 2))._nameSet)
    ∧ (⟨[("x", JSVal.num 1)], ["x"]⟩ : AliasMap).size
        ≤ (setValid ⟨[("x", JSVal.num 1)], ["x"]⟩ (Key.mk "y" ["x"])
          (JSVal.num 2)).size :=
  C7_collision_overwrites ⟨[("x", JSVal.num 1)], ["x"]⟩ _ (Key.mk "y" ["x"])
    (JSVal.num 2) "x" (by decide) (by decide)
    (by intro h; injection h with hn; exact absurd hn (by decide))
    (set_toVal _ _ _)

/-- C8: `set(key)` with the value argument omitted (JavaScript passes
`undefined`) stores the key object itself, so `get` of the primary name or
of any alias returns the key. -/
theorem C8_key_stored_as_value (m m' : AliasMap) (k : Key)
    (hset : m.setArgs k.toVal none = some m') :
    ∀ s ∈ keyNames k, m'.get (JSVal.str s) = some k.toVal := by
  rw [AliasMap.setArgs] at hset
  rw [show (none : Option JSVal).getD JSVal.undefined = JSVal.undefined from rfl] at hset
  rw [set_toVal] at hset
  injection hset with h
  subst h
  intro s hs
  show some (mapGet (setValid m k JSVal.undefined)._map s) = some k.toVal
  rw [mapGet_setValid, if_pos hs]
  rfl

/-- C8 witness: `set({name:"n", aliasArr:["a"]})`, then `get("a")` returns
the key object. -/
theorem C8_witness :
    (setValid AliasMap.empty (Key.mk "n" ["a"]) JSVal.undefined).get (JSVal.str "a")
      = some (Key.mk "n" ["a"]).toVal :=
  C8_key_stored_as_value AliasMap.empty _ (Key.mk "n" ["a"])
    (set_toVal AliasMap.empty (Key.mk "n" ["a"]) JSVal.undefined) "a" (by decide)

/-- C9 counterexample: with `"q"` registered only as an alias of `"p"`,
`delete({name:"q", aliasArr:[]})` returns `true` (because `_map.delete`
found `"q"`), although `"q"` is not a stored primary name — the claim's
"returns false" fails. -/
theorem C9_counterexample :
    "q" ∉ (runOps [Op.setOp ⟨"p", ["q"]⟩ (JSVal.num 3)])._nameSet
    ∧ ((runOps [Op.setOp ⟨"p", ["q"]⟩ (JSVal.num 3)]).delete
        (Key.mk "q" []).toVal).map Prod.fst = some true := by
  constructor <;> decide

/-- C9 (amended): when `k.name` is not a stored primary name, `delete(k)`
returns whether `k.name` was nonetheless present in the flat association
(`false` when wholly absent, `true` when it was another entry's alias), and
it is not a no-op: the flat associations for `k.name` and for every string
in `k.aliasArr` are removed, so a subsequent `has` on any of them returns
`false`. -/
theorem C9_amended (m : AliasMap) (k : Key) (_hnp : k.name ∉ m._nameSet) :
    (m.delete k.toVal).map Prod.fst = some (mapHas m._map k.name)
    ∧ ∀ r m', m.delete k.toVal = some (r, m') →
        ∀ s ∈ keyNames k, m'.has (JSVal.str s) = some false := by
  constructor
  · rw [delete_toVal]
    rfl
  · intro r m' hdel
    rw [delete_toVal] at hdel
    injection hdel with h
    injection h with h1 h2
    subst h2
    intro s hs
    show some (mapHas (deleteValid m k)._map s) = some false
    rw [mapHas_deleteValid, if_pos hs]

/-- C9 witness: `"q"` is an alias of the stored `"p"`; deleting
`{name:"q", aliasArr:[]}` returns `true` and removes `"q"`. -/
theorem C9_witness :
    ((⟨[("p", JSVal.num 3), ("q", JSVal.num 3)], ["p"]⟩ : AliasMap).delete
        (Key.mk "q" []).toVal).map Prod.fst
      = some (mapHas
          (⟨[("p", JSVal.num 3), ("q", JSVal.num 3)], ["p"]⟩ : AliasMap)._map "q")
    ∧ (deleteValid ⟨[("p", JSVal.num 3), ("q", JSVal.num 3)], ["p"]⟩
        (Key.mk "q" [])).has (JSVal.str "q") = some false :=
  ⟨(C9_amended ⟨[("p", JSVal.num 3), ("q", JSVal.num 3)], ["p"]⟩ (Key.mk "q" [])
      (by decide)).1,
   (C9_amended ⟨[("p", JSVal.num 3), ("q", JSVal.num 3)], ["p"]⟩ (Key.mk "q" [])
      (by decide)).2 _ _ (delete_toVal _ _) "q" (by decide)⟩

/-- C10: explicitly passing `undefined` as the value is indistinguishable
from omitting the argument — the source's `typeof value === 'undefined'`
test sees the same thing — and the key object itself is stored as the value
under the primary name and every alias. -/
theorem C10_explicit_undefined (m : AliasMap) (key : JSVal) (k : Key) :
    m.setArgs key (some JSVal.undefined) = m.setArgs key none
    ∧ ∀ s ∈ keyNames k,
        ((m.setArgs k.toVal (some JSVal.undefined)).getD m).get (JSVal.str s)
          = some k.toVal := by
  refine ⟨rfl, ?_⟩
  intro s hs
  show ((m.set k.toVal JSVal.undefined).getD m).get (JSVal.str s) = some k.toVal
  rw [set_toVal]
  show some (mapGet (setValid m k JSVal.undefined)._map s) = some k.toVal
  rw [mapGet_setValid, if_pos hs]
  rfl

/-- C10 witness: the two call shapes at a concrete key, and the stored value
observed through the alias. -/
theorem C10_witness :
    (AliasMap.empty.setArgs (Key.mk "n" ["a"]).toVal (some JSVal.undefined)
        = AliasMap.empty.setArgs (Key.mk "n" ["a"]).toVal none)
    ∧ ((AliasMap.empty.setArgs (Key.mk "n" ["a"]).toVal (some JSVal.undefined)).getD
        AliasMap.empty).get (JSVal.str "a") = some (Key.mk "n" ["a"]).toVal :=
  ⟨(C10_explicit_undefined AliasMap.empty (Key.mk "n" ["a"]).toVal
      (Key.mk "n" ["a"])).1,
   (C10_explicit_undefined AliasMap.empty (Key.mk "n" ["a"]).toVal
      (Key.mk "n" ["a"])).2 "a" (by decide)⟩

end MintUtils
